import Mathlib

/-!
# Verification of the go-mdfmt core (rule engine and renderer)

A shallow embedding of the markdown formatter's core: the AST
(`pkg/parser/ast.go`), the formatting rule engine (`pkg/formatter`), and the
renderer (`pkg/renderer/renderer.go`), together with proofs about the claims
of the specification.

Modelling conventions:
* Go strings are modelled as `List Char` (`Str`).  Go's `len` is byte length;
  on the ASCII inputs considered here it coincides with the character count.
* Go `int` is modelled as `Int` where negative values are observable
  (line width, heading levels, max blank lines), `Nat` for loop counters
  that start at zero and only grow.
* Fallible Go functions (returning `error`) are modelled with
  `Except String`.
* Go's in-place tree mutation is modelled by returning the updated node; the
  engine's walker captures the root and the (pointers to the) top-level
  nodes, so the tree after a pass is the document whose children are the
  processed top-level nodes (`engineFormatDoc`).
* Regexp-based helpers are implemented as deterministic scanners that follow
  Go's leftmost-first (Perl-style) match semantics for the concrete patterns
  appearing in the source.  Scanners that skip past a match use an explicit
  fuel argument, always called with fuel = input length, which is enough to
  never run out; this keeps them structurally recursive.
-/

/-- Go strings, modelled as lists of characters. -/
abbrev Str := List Char

/-- ASCII part of Go's `unicode.IsSpace` (used by `strings.Fields`,
`strings.TrimSpace`).  The non-ASCII space characters (U+0085, U+00A0) are
not modelled. -/
def goIsSpace (c : Char) : Bool :=
  c = ' ' || c = '\t' || c = '\n' || c = '\x0b' || c = '\x0c' || c = '\r'

/-- Go regexp's Perl class `\s`, which is `[\t\n\f\r ]` (no vertical tab). -/
def reIsSpace (c : Char) : Bool :=
  c = ' ' || c = '\t' || c = '\n' || c = '\x0c' || c = '\r'

/-- Go regexp's word character class used by `\b`: `[0-9A-Za-z_]`. -/
def wordChar (c : Char) : Bool := c.isAlphanum || c = '_'

/-- Model of `strings.Split(text, "\n")`. -/
def splitLinesC : Str → List Str
  | [] => [[]]
  | c :: cs =>
    if c = '\n' then [] :: splitLinesC cs
    else
      match splitLinesC cs with
      | l :: ls => (c :: l) :: ls
      | [] => [[c]]

/-- Model of `strings.Join(lines, "\n")`. -/
def joinLinesC (ls : List Str) : Str := List.intercalate ['\n'] ls

/-- Model of `strings.TrimSpace`. -/
def trimC (cs : Str) : Str :=
  ((cs.dropWhile goIsSpace).reverse.dropWhile goIsSpace).reverse

/-- Model of `strings.TrimRight(line, " \t")`. -/
def trimRightSpaceTab (cs : Str) : Str :=
  (cs.reverse.dropWhile (fun c => c = ' ' || c = '\t')).reverse

/-- Helper for `strings.Fields`: `w` is the current word, reversed. -/
def fieldsCAux : Str → Str → List Str
  | w, [] => if w = [] then [] else [w.reverse]
  | w, c :: cs =>
    if goIsSpace c then
      if w = [] then fieldsCAux [] cs else w.reverse :: fieldsCAux [] cs
    else fieldsCAux (c :: w) cs

/-- Model of `strings.Fields`: split around runs of whitespace, no empty fields. -/
def fieldsC (cs : Str) : List Str := fieldsCAux [] cs

/-- The greedy line-building loop shared verbatim by
`ParagraphFormatter.wrapText` (pkg/formatter) and
`MarkdownRenderer.wrapText` (pkg/renderer): append the next token with one
separating space if the line stays within `width`, else close the line.
The final line is emitted when the tokens run out. -/
def wrapLoop (width : Int) (cur : Str) : List Str → List Str
  | [] => [cur]
  | tok :: rest =>
    if 0 < cur.length ∧ width < (cur.length : Int) + 1 + (tok.length : Int) then
      cur :: wrapLoop width tok rest
    else
      wrapLoop width (if 0 < cur.length then cur ++ ' ' :: tok else tok) rest

/-- Model of `ParagraphFormatter.wrapText` (pkg/formatter): tokenizes with
`strings.Fields` only — link constructs get no special treatment here. -/
def paragraphWrapText (text : Str) (width : Int) : Str :=
  if width ≤ 0 then text
  else
    let words := fieldsC text
    if words = [] then text
    else joinLinesC (wrapLoop width [] words)

/-! ## Link-pattern matching (pkg/renderer)

The renderer's regexp `\[[^\]]*\]\([^)]*\)` (`containsMarkdownLinks`,
`tokenizeWithLinks`).  The negated character classes make Go's
leftmost-first match deterministic: the label run extends to the first `]`,
which must be followed by `(`, and the destination run extends to the first
`)`. -/

/-- Try to match `\[[^\]]*\]\([^)]*\)` at the start of the input.  Returns
the matched text and the remainder after the match. -/
def matchLinkAt : Str → Option (Str × Str)
  | '[' :: rest =>
    let lab := rest.takeWhile (fun c => c ≠ ']')
    match rest.dropWhile (fun c => c ≠ ']') with
    | ']' :: '(' :: rest2 =>
      let dst := rest2.takeWhile (fun c => c ≠ ')')
      match rest2.dropWhile (fun c => c ≠ ')') with
      | ')' :: tail => some ('[' :: lab ++ ']' :: '(' :: dst ++ [')'], tail)
      | _ => none
    | _ => none
  | _ => none

/-- Model of `containsMarkdownLinks` (pkg/renderer): `regexp.MatchString` of the link
pattern, i.e. a match exists at some position. -/
def hasLink : Str → Bool
  | [] => false
  | c :: cs => (matchLinkAt (c :: cs)).isSome || hasLink cs

/-- Model of `MarkdownRenderer.containsMarkdownLinks`. -/
def containsMarkdownLinks (text : Str) : Bool := hasLink text

/-- Scanner of `tokenizeWithLinks`: words before each link via
`strings.Fields`, each link one token; `acc` holds the pending non-link
characters in reverse.  `fuel` is always at least the length of the third
argument, so the first equation never fires on the real calls. -/
def tokenizeAuxFuel : Nat → Str → Str → List Str
  | 0, acc, cs => fieldsC (acc.reverse ++ cs)
  | _ + 1, acc, [] => fieldsC acc.reverse
  | fuel + 1, acc, c :: cs =>
    match matchLinkAt (c :: cs) with
    | some (link, rest) => fieldsC acc.reverse ++ link :: tokenizeAuxFuel fuel [] rest
    | none => tokenizeAuxFuel fuel (c :: acc) cs

/-- Model of `MarkdownRenderer.tokenizeWithLinks`: split text into words while
keeping markdown links intact.  When no link matches this degenerates to
`strings.Fields`, exactly as in the source. -/
def tokenizeWithLinks (text : Str) : List Str := tokenizeAuxFuel text.length [] text

/-- Model of `MarkdownRenderer.wrapText` (pkg/renderer): same greedy loop as the
formatter's, but over `tokenizeWithLinks` tokens. -/
def rendererWrapText (text : Str) (width : Int) : Str :=
  if width ≤ 0 then text
  else
    let tokens := tokenizeWithLinks text
    if tokens = [] then text
    else joinLinesC (wrapLoop width [] tokens)

/-! ## `fixBrokenLinks` (pkg/renderer)

Two `ReplaceAllStringFunc` passes.  Pass 1 uses
`\[([^\]]*)\n([^\]]*)\]\(([^)]*)\)`: with Go's greedy leftmost-first
semantics the first group extends to the *last* newline inside the
bracketed run.  Pass 2 uses `\[([^\]]*(?:\n[^\]]*)*)\]\(([^)]*)\)`, whose
first group is just the bracketed run (newline is not `]`), and replaces
every newline in the label by a space. -/

/-- Match pass 1's broken-link pattern at the start of the input, returning
the replacement text (`[g1 g2](url)`) and the remainder. -/
def matchBroken1At : Str → Option (Str × Str)
  | '[' :: rest =>
    let run := rest.takeWhile (fun c => c ≠ ']')
    match rest.dropWhile (fun c => c ≠ ']') with
    | ']' :: '(' :: rest2 =>
      if '\n' ∈ run then
        let g2 := (run.reverse.takeWhile (fun c => c ≠ '\n')).reverse
        let g1 := run.take (run.length - g2.length - 1)
        let dst := rest2.takeWhile (fun c => c ≠ ')')
        match rest2.dropWhile (fun c => c ≠ ')') with
        | ')' :: tail =>
          some ('[' :: (g1 ++ ' ' :: g2) ++ ']' :: '(' :: dst ++ [')'], tail)
        | _ => none
      else none
    | _ => none
  | _ => none

/-- Match pass 2's pattern at the start of the input, replacing newlines in
the label with spaces (`strings.ReplaceAll(linkText, "\n", " ")`). -/
def matchBroken2At : Str → Option (Str × Str)
  | '[' :: rest =>
    let lab := rest.takeWhile (fun c => c ≠ ']')
    match rest.dropWhile (fun c => c ≠ ']') with
    | ']' :: '(' :: rest2 =>
      let dst := rest2.takeWhile (fun c => c ≠ ')')
      match rest2.dropWhile (fun c => c ≠ ')') with
      | ')' :: tail =>
        some ('[' :: (lab.map fun c => if c = '\n' then ' ' else c) ++
              ']' :: '(' :: dst ++ [')'], tail)
      | _ => none
    | _ => none
  | _ => none

/-- Model of `ReplaceAllStringFunc` driver for pass 1 (fuel = input length). -/
def replaceBroken1Fuel : Nat → Str → Str
  | 0, cs => cs
  | _ + 1, [] => []
  | fuel + 1, c :: cs =>
    match matchBroken1At (c :: cs) with
    | some (rep, rest) => rep ++ replaceBroken1Fuel fuel rest
    | none => c :: replaceBroken1Fuel fuel cs

/-- Model of `ReplaceAllStringFunc` driver for pass 2 (fuel = input length). -/
def replaceBroken2Fuel : Nat → Str → Str
  | 0, cs => cs
  | _ + 1, [] => []
  | fuel + 1, c :: cs =>
    match matchBroken2At (c :: cs) with
    | some (rep, rest) => rep ++ replaceBroken2Fuel fuel rest
    | none => c :: replaceBroken2Fuel fuel cs

/-- Model of `MarkdownRenderer.fixBrokenLinks`: pass 1 then pass 2. -/
def fixBrokenLinks (text : Str) : Str :=
  replaceBroken2Fuel (replaceBroken1Fuel text.length text).length
    (replaceBroken1Fuel text.length text)

/-! ## AST (pkg/parser/ast.go) -/

/-- Model of `parser.NodeType`. -/
inductive NodeType where
  | document | heading | paragraph | list | listItem | codeBlock | text
deriving DecidableEq, Repr

mutual
/-- Model of `parser.Node`, the closed set of AST node variants.  `*parser.Document`,
`*parser.Heading`, …, `*parser.ListItem` all implement the `Node`
interface; `List.Items` is a dedicated `[]*ListItem` slice. -/
inductive Node where
  | document (children : List Node)
  | heading (level : Int) (text : Str) (style : Str)
  | paragraph (text : Str)
  | list (ordered : Bool) (items : List ListItem) (marker : Str)
  | listItem (item : ListItem)
  | codeBlock (language : Str) (content : Str) (fenced : Bool) (fence : Str)
  | text (content : Str)

/-- Model of `parser.ListItem`: text, marker, child nodes (nested lists). -/
inductive ListItem where
  | mk (text : Str) (marker : Str) (children : List Node)
end

/-- Model of `Node.Type()`. -/
def nodeType : Node → NodeType
  | .document _ => .document
  | .heading .. => .heading
  | .paragraph _ => .paragraph
  | .list .. => .list
  | .listItem _ => .listItem
  | .codeBlock .. => .codeBlock
  | .text _ => .text

/-- Model of `parser.NewWalker(doc).Next()` sequence: the document node followed by
the document's top-level children — `append([]Node{doc}, doc.Children...)`.
No deeper nodes are ever produced. -/
def walkerNodes (children : List Node) : List Node :=
  Node.document children :: children

/-! ## Configuration (pkg/config) -/

/-- Model of `config.HeadingConfig`. -/
structure HeadingConfig where
  style : Str
  normalizeLevels : Bool

/-- Model of `config.ListConfig`. -/
structure ListConfig where
  bulletStyle : Str
  numberStyle : Str
  consistentIndentation : Bool

/-- Model of `config.CodeConfig`. -/
structure CodeConfig where
  fenceStyle : Str
  languageDetection : Bool

/-- Model of `config.WhitespaceConfig`. -/
structure WhitespaceConfig where
  maxBlankLines : Int
  trimTrailingSpaces : Bool
  ensureFinalNewline : Bool

/-- Model of `config.Config` (the `Files` section is file-discovery only and not
consumed by the core engine/renderer, so it is not modelled). -/
structure Config where
  lineWidth : Int
  heading : HeadingConfig
  list : ListConfig
  code : CodeConfig
  whitespace : WhitespaceConfig

/-- Model of `config.Default()`. -/
def Config.default : Config where
  lineWidth := 80
  heading := ⟨"atx".toList, true⟩
  list := ⟨"-".toList, ".".toList, true⟩
  code := ⟨"```".toList, true⟩
  whitespace := ⟨2, true, true⟩

/-! ## Renderer (pkg/renderer/renderer.go) -/

/-- Model of `renderHeading`: setext only for `Style == "setext"` and level ≤ 2
(`SecondHeadingLevel`); the underline repeats the trimmed text length,
bumped to 3 only when that length is zero.  ATX headings repeat `#` level
times (negative levels would crash `strings.Repeat` in Go; `Int.toNat`
truncates instead, and no claim concerns that case). -/
def renderHeading (level : Int) (text : Str) (style : Str) : Str :=
  if style = "setext".toList ∧ level ≤ 2 then
    let marker : Char := if level = 2 then '-' else '='
    let textLength := (trimC text).length
    let textLength := if textLength = 0 then 3 else textLength
    text ++ '\n' :: List.replicate textLength marker ++ '\n' :: '\n' :: []
  else
    List.replicate level.toNat '#' ++ ' ' :: text ++ '\n' :: '\n' :: []

/-- Model of `renderParagraph`: repair broken links, then reflow only when a line
width is configured and the repaired text contains no markdown link. -/
def renderParagraph (cfg : Config) (text : Str) : Str :=
  let content := fixBrokenLinks text
  let content2 :=
    if 0 < cfg.lineWidth ∧ containsMarkdownLinks content = false then
      rendererWrapText content cfg.lineWidth
    else content
  content2 ++ '\n' :: '\n' :: []

/-- Per-line `strings.TrimRight(line, " \t")` and re-join, as done both by
`renderText` and by the whitespace formatter's `trimTrailingSpaces`. -/
def trimTrailingSpacesF (cs : Str) : Str :=
  joinLinesC ((splitLinesC cs).map trimRightSpaceTab)

/-- Model of `renderText`: pass content through, trimming trailing per-line
whitespace when configured. -/
def renderText (cfg : Config) (content : Str) : Str :=
  if cfg.whitespace.trimTrailingSpaces then trimTrailingSpacesF content
  else content

/-- Model of `renderCodeBlock`: fenced blocks wrap the content between fence lines
(opening fence carries the language); unfenced blocks indent each line by
four spaces. -/
def renderCodeBlock (language content : Str) (fenced : Bool) (fence : Str) : Str :=
  if fenced then
    fence ++ language ++ '\n' :: content ++
      (if content.getLast? = some '\n' then [] else ['\n']) ++
      fence ++ '\n' :: '\n' :: []
  else
    ((splitLinesC content).map fun line => "    ".toList ++ line ++ ['\n']).flatten ++ ['\n']

/-- Loop body of `normalizeBlankLines`: `k` counts the consecutive blank
input lines seen so far; a blank line is kept only while the count stays
within the maximum. -/
def nblGo (maxB : Int) : List Str → Nat → List Str
  | [], _ => []
  | line :: rest, k =>
    if trimC line = [] then
      if (k : Int) + 1 ≤ maxB then line :: nblGo maxB rest (k + 1)
      else nblGo maxB rest (k + 1)
    else line :: nblGo maxB rest 0

/-- Model of `normalizeBlankLines`: limit consecutive blank lines to the configured
maximum; a negative maximum returns the text unchanged. -/
def normalizeBlankLines (text : Str) (maxBlankLines : Int) : Str :=
  if maxBlankLines < 0 then text
  else joinLinesC (nblGo maxBlankLines (splitLinesC text) 0)

mutual
/-- Model of `renderNode`: dispatch on the node variant; the `default` branch of the
Go switch (which includes `*parser.Document`, absent from the switch)
writes nothing and returns `nil`. -/
def renderNodeE (cfg : Config) : Node → Nat → Except String Str
  | .heading level text style, _ => .ok (renderHeading level text style)
  | .paragraph text, _ => .ok (renderParagraph cfg text)
  | .list _ items _, depth => renderListE cfg items depth
  | .listItem item, depth => renderListItemE cfg item depth
  | .codeBlock language content fenced fence, _ =>
    .ok (renderCodeBlock language content fenced fence)
  | .text content, _ => .ok (renderText cfg content)
  | .document _, _ => .ok []

/-- Model of `renderList`: each item at `depth+1`, then a closing newline. -/
def renderListE (cfg : Config) (items : List ListItem) (depth : Nat) :
    Except String Str :=
  match renderItemsE cfg items (depth + 1) with
  | .error e => .error e
  | .ok s => .ok (s ++ ['\n'])

/-- The item loop of `renderList`, propagating the first failure. -/
def renderItemsE (cfg : Config) : List ListItem → Nat → Except String Str
  | [], _ => .ok []
  | item :: items, depth =>
    match renderListItemE cfg item depth with
    | .error e => .error e
    | .ok s =>
      match renderItemsE cfg items depth with
      | .error e => .error e
      | .ok s2 => .ok (s ++ s2)

/-- Model of `renderListItem`: indentation for nesting (`depth > 1`), marker (falling
back to the configured bullet style when empty), item text, then child
nodes at the same depth. -/
def renderListItemE (cfg : Config) (item : ListItem) (depth : Nat) :
    Except String Str :=
  match item with
  | .mk text marker children =>
    let indent := if depth > 1 then (List.replicate (depth - 1) "  ".toList).flatten else []
    let marker1 := if marker = [] then cfg.list.bulletStyle else marker
    let head := indent ++ marker1 ++ ' ' :: text
    if children.isEmpty then .ok (head ++ ['\n'])
    else
      match renderChildNodesE cfg children depth with
      | .error e => .error e
      | .ok s => .ok (head ++ '\n' :: s)

/-- The child-node loop of `renderListItem` and `renderDocument`. -/
def renderChildNodesE (cfg : Config) : List Node → Nat → Except String Str
  | [], _ => .ok []
  | n :: ns, depth =>
    match renderNodeE cfg n depth with
    | .error e => .error e
    | .ok s =>
      match renderChildNodesE cfg ns depth with
      | .error e => .error e
      | .ok s2 => .ok (s ++ s2)
end

/-- Model of `renderDocument(doc, 0)`: render every top-level child. -/
def renderDocumentE (cfg : Config) (children : List Node) : Except String Str :=
  renderChildNodesE cfg children 0

/-- Model of `MarkdownRenderer.Render`: serialize the document, then apply the
document-level whitespace rules (blank-line collapsing and the optional
final newline). -/
def Render (cfg : Config) (children : List Node) : Except String Str :=
  match renderDocumentE cfg children with
  | .error e => .error e
  | .ok s =>
    let result := normalizeBlankLines s cfg.whitespace.maxBlankLines
    let result2 :=
      if cfg.whitespace.ensureFinalNewline ∧ ¬result.getLast? = some '\n' then
        result ++ ['\n']
      else result
    .ok result2

/-! ## Formatter package (pkg/formatter) -/

/-- Model of `normalizeWhitespace`: per line, `strings.Join(strings.Fields(line), " ")`. -/
def normalizeWhitespace (text : Str) : Str :=
  joinLinesC ((splitLinesC text).map fun line => List.intercalate [' '] (fieldsC line))

/-- Model of `"atx"`. -/
def atxStyle : Str := "atx".toList

/-- Model of `"setext"`. -/
def setextStyle : Str := "setext".toList

/-- Model of `HeadingFormatter.Format`: style preference (setext only up to level 2,
`SetextMaxLevel`), optional level clamp into `[MinHeadingLevel,
MaxHeadingLevel]`, and a trim of the heading text. -/
def headingFormatterFormat (cfg : Config) (n : Node) : Except String Node :=
  match n with
  | .heading level text style =>
    let style1 :=
      if cfg.heading.style = atxStyle then atxStyle
      else if cfg.heading.style = setextStyle then
        if level ≤ 2 then setextStyle else atxStyle
      else style
    let level1 :=
      if cfg.heading.normalizeLevels then
        let a := if level > 6 then 6 else level
        if a < 1 then 1 else a
      else level
    .ok (.heading level1 (trimC text) style1)
  | n => .ok n

/-- Model of `ParagraphFormatter.Format`: reflow when a width is configured, then
trim and collapse intra-line whitespace runs. -/
def paragraphFormatterFormat (cfg : Config) (n : Node) : Except String Node :=
  match n with
  | .paragraph text =>
    let t1 := if 0 < cfg.lineWidth then paragraphWrapText text cfg.lineWidth else text
    .ok (.paragraph (normalizeWhitespace (trimC t1)))
  | n => .ok n

/-- Ordered-list marker for item number `i` under the configured numbering
token (`.` or `)`, defaulting to `.`). -/
def numberMarker (cfg : Config) (i : Nat) : Str :=
  if cfg.list.numberStyle = ".".toList then (toString i).toList ++ ['.']
  else if cfg.list.numberStyle = ")".toList then (toString i).toList ++ [')']
  else (toString i).toList ++ ['.']

/-- The marker field of a list item. -/
def itemMarkerOf : ListItem → Str
  | .mk _ marker _ => marker

mutual
/-- Model of `ListFormatter.Format`: dispatch to list / list-item handling. -/
def listFormatterFormat (cfg : Config) : Node → Except String Node
  | .list ordered items marker => formatListF cfg ordered items marker
  | .listItem item =>
    match formatListItemF cfg item with
    | .error e => .error e
    | .ok item1 => .ok (.listItem item1)
  | n => .ok n

/-- Model of `formatList`: assign markers (`formatUnorderedList`/`formatOrderedList`
compute them per item; the field updates commute with the later text
processing, so the marker is applied when each item is processed), then
`processListItems`. -/
def formatListF (cfg : Config) (ordered : Bool) (items : List ListItem)
    (marker : Str) : Except String Node :=
  let markers :=
    if ordered then (List.range items.length).map fun i => numberMarker cfg (i + 1)
    else items.map fun _ => cfg.list.bulletStyle
  let marker1 := if ordered then marker else cfg.list.bulletStyle
  match processListItemsF cfg markers items with
  | .error e => .error e
  | .ok items1 => .ok (.list ordered items1 marker1)

/-- Model of `processListItems` over the items, consuming the matching marker list
(always of equal length; the fallback keeps the item's own marker). -/
def processListItemsF (cfg : Config) :
    List Str → List ListItem → Except String (List ListItem)
  | _, [] => .ok []
  | ms, item :: items =>
    match processListItemF cfg (ms.headD (itemMarkerOf item)) item with
    | .error e => .error e
    | .ok item1 =>
      match processListItemsF cfg ms.tail items with
      | .error e => .error e
      | .ok items1 => .ok (item1 :: items1)

/-- One iteration of `processListItems`: set the assigned marker, normalize
the item text when consistent indentation is configured, and recurse into
nested lists (`processNestedLists`). -/
def processListItemF (cfg : Config) (marker : Str) (item : ListItem) :
    Except String ListItem :=
  match item with
  | .mk text _ children =>
    let text1 :=
      if cfg.list.consistentIndentation then normalizeWhitespace (trimC text)
      else text
    match processNestedListsF cfg children with
    | .error e => .error e
    | .ok children1 => .ok (.mk text1 marker children1)

/-- Model of `processNestedLists`: recursively reformat any nested list among the
item's children; other children are untouched. -/
def processNestedListsF (cfg : Config) : List Node → Except String (List Node)
  | [] => .ok []
  | c :: cs =>
    match
      (match c with
       | .list ordered items marker => formatListF cfg ordered items marker
       | c => .ok c) with
    | .error e => .error e
    | .ok c1 =>
      match processNestedListsF cfg cs with
      | .error e => .error e
      | .ok cs1 => .ok (c1 :: cs1)

/-- Model of `formatListItem`: trim and normalize the text, then nested lists. -/
def formatListItemF (cfg : Config) (item : ListItem) : Except String ListItem :=
  match item with
  | .mk text marker children =>
    match processNestedListsF cfg children with
    | .error e => .error e
    | .ok children1 => .ok (.mk (normalizeWhitespace (trimC text)) marker children1)
end

/-- Model of `CodeBlockFormatter.Format`: rewrite the fence to the configured style;
content and language are untouched (language detection is a no-op). -/
def codeBlockFormatterFormat (cfg : Config) (n : Node) : Except String Node :=
  match n with
  | .codeBlock language content fenced fence =>
    let fence1 :=
      if cfg.code.fenceStyle = "```".toList then "```".toList
      else if cfg.code.fenceStyle = "~~~".toList then "~~~".toList
      else fence
    .ok (.codeBlock language content fenced fence1)
  | n => .ok n

/-! ## Inline formatter (pkg/formatter)

Three `ReplaceAll` passes over regexps whose negated character classes make
the leftmost-first match computable by direct scanning.  For the inline-code
and link patterns `X\s+([^X]+)\s+X` the greedy leading `\s+` takes as many
of the leading spaces as feasibility allows (`min` with `length - 2`), the
greedy group then forces the trailing `\s+` to the single last character,
which must therefore be a space. -/

/-- Match `` `\s+([^`]+)\s+` `` at the start of the input; replacement is
`` `$1` ``. -/
def matchCodeSpanAt : Str → Option (Str × Str)
  | '\x60' :: rest =>
    let body := rest.takeWhile (fun c => c ≠ '\x60')
    match rest.dropWhile (fun c => c ≠ '\x60') with
    | _ :: tail =>
      let p := (body.takeWhile reIsSpace).length
      let s1 := min p (body.length - 2)
      if 1 ≤ s1 ∧ reIsSpace (body.getLastD 'x') then
        some ('\x60' :: (body.drop s1).dropLast ++ ['\x60'], tail)
      else none
    | [] => none
  | _ => none

/-- Driver for `normalizeInlineCode` (fuel = input length). -/
def replaceCodeSpansFuel : Nat → Str → Str
  | 0, cs => cs
  | _ + 1, [] => []
  | fuel + 1, c :: cs =>
    match matchCodeSpanAt (c :: cs) with
    | some (rep, rest) => rep ++ replaceCodeSpansFuel fuel rest
    | none => c :: replaceCodeSpansFuel fuel cs

/-- Model of `InlineFormatter.normalizeInlineCode`: remove the space padding inside
padded inline-code spans. -/
def normalizeInlineCode (text : Str) : Str := replaceCodeSpansFuel text.length text

/-- Match `\b_([^_]+)_\b` starting at an underscore (the word boundary
*before* the underscore is checked by the driver); replacement `*$1*`. -/
def matchEmphAt : Str → Option (Str × Str)
  | '_' :: rest =>
    let g1 := rest.takeWhile (fun c => c ≠ '_')
    match rest.dropWhile (fun c => c ≠ '_') with
    | _ :: tail =>
      if ¬g1.isEmpty ∧ (match tail.head? with
                        | none => true
                        | some d => !wordChar d) = true then
        some ('*' :: g1 ++ ['*'], tail)
      else none
    | [] => none
  | _ => none

/-- Driver for `normalizeEmphasis`; `prev` is the character before the
current position (none at the start), for the `\b` check. -/
def replaceEmphFuel : Nat → Option Char → Str → Str
  | 0, _, cs => cs
  | _ + 1, _, [] => []
  | fuel + 1, prev, c :: cs =>
    if c = '_' ∧ (match prev with
                  | none => true
                  | some p => !wordChar p) = true then
      match matchEmphAt (c :: cs) with
      | some (rep, rest) => rep ++ replaceEmphFuel fuel (some '_') rest
      | none => c :: replaceEmphFuel fuel (some c) cs
    else c :: replaceEmphFuel fuel (some c) cs

/-- Model of `InlineFormatter.normalizeEmphasis`: `_text_` becomes `*text*` at word
boundaries. -/
def normalizeEmphasis (text : Str) : Str := replaceEmphFuel text.length none text

/-- Match `\[\s+([^\]]+)\s+\]` at the start of the input; replacement
`[$1]`. -/
def matchPaddedLinkAt : Str → Option (Str × Str)
  | '[' :: rest =>
    let body := rest.takeWhile (fun c => c ≠ ']')
    match rest.dropWhile (fun c => c ≠ ']') with
    | _ :: tail =>
      let p := (body.takeWhile reIsSpace).length
      let s1 := min p (body.length - 2)
      if 1 ≤ s1 ∧ reIsSpace (body.getLastD 'x') then
        some ('[' :: (body.drop s1).dropLast ++ [']'], tail)
      else none
    | [] => none
  | _ => none

/-- Driver for `normalizeLinks` (fuel = input length). -/
def replacePaddedLinksFuel : Nat → Str → Str
  | 0, cs => cs
  | _ + 1, [] => []
  | fuel + 1, c :: cs =>
    match matchPaddedLinkAt (c :: cs) with
    | some (rep, rest) => rep ++ replacePaddedLinksFuel fuel rest
    | none => c :: replacePaddedLinksFuel fuel cs

/-- Model of `InlineFormatter.normalizeLinks`: strip space padding inside link
labels. -/
def normalizeLinks (text : Str) : Str := replacePaddedLinksFuel text.length text

/-- Model of `InlineFormatter.normalizeInlineElements`: code spans, then emphasis,
then links. -/
def normalizeInlineElements (text : Str) : Str :=
  normalizeLinks (normalizeEmphasis (normalizeInlineCode text))

/-- Model of `InlineFormatter.Format`: applies the inline substitutions to text and
paragraph nodes. -/
def inlineFormatterFormat (_cfg : Config) (n : Node) : Except String Node :=
  match n with
  | .text content => .ok (.text (normalizeInlineElements content))
  | .paragraph text => .ok (.paragraph (normalizeInlineElements text))
  | n => .ok n

/-- Model of `WhitespaceFormatter.Format`: per-type trailing-space handling;
`normalizeDocumentWhitespace` is a no-op, list nodes have no case in the
switch. -/
def whitespaceFormatterFormat (cfg : Config) (n : Node) : Except String Node :=
  match n with
  | .document children => .ok (.document children)
  | .paragraph text =>
    .ok (.paragraph
      (if cfg.whitespace.trimTrailingSpaces then trimTrailingSpacesF text else text))
  | .heading level text style =>
    .ok (.heading level
      (if cfg.whitespace.trimTrailingSpaces then trimC text else text) style)
  | .codeBlock language content fenced fence =>
    .ok (.codeBlock language
      (if cfg.whitespace.trimTrailingSpaces then trimTrailingSpacesF content else content)
      fenced fence)
  | .text content =>
    .ok (.text
      (if cfg.whitespace.trimTrailingSpaces then trimTrailingSpacesF content else content))
  | n => .ok n

/-! ## Engine (pkg/formatter) -/

/-- Model of `formatter.NodeFormatter`: name, claimed node types, mutation, and
priority. -/
structure NodeFormatter where
  name : Str
  canFormat : NodeType → Bool
  format : Config → Node → Except String Node
  priority : Int

/-- The registered `&HeadingFormatter{}`.  `RegisterDefaults` registers
zero-value structs, so the embedded `BaseFormatter` gives name `""` and
priority `0` — the `*FormatterPriority` constants are only used by the
unexercised `New*Formatter` constructors. -/
def headingFormatter : NodeFormatter :=
  ⟨[], fun t => t == NodeType.heading, headingFormatterFormat, 0⟩

/-- The registered `&ParagraphFormatter{}` (zero-value, priority 0). -/
def paragraphFormatter : NodeFormatter :=
  ⟨[], fun t => t == NodeType.paragraph, paragraphFormatterFormat, 0⟩

/-- The registered `&ListFormatter{}` (zero-value, priority 0); claims both
list and list-item nodes. -/
def listFormatter : NodeFormatter :=
  ⟨[], fun t => t == NodeType.list || t == NodeType.listItem, listFormatterFormat, 0⟩

/-- The registered `&CodeBlockFormatter{}` (zero-value, priority 0). -/
def codeBlockFormatter : NodeFormatter :=
  ⟨[], fun t => t == NodeType.codeBlock, codeBlockFormatterFormat, 0⟩

/-- The registered `&InlineFormatter{}` (zero-value, priority 0); claims
text and paragraph nodes. -/
def inlineFormatter : NodeFormatter :=
  ⟨[], fun t => t == NodeType.text || t == NodeType.paragraph, inlineFormatterFormat, 0⟩

/-- The registered `&WhitespaceFormatter{}` (zero-value, priority 0);
claims every node type. -/
def whitespaceFormatter : NodeFormatter :=
  ⟨[], fun _ => true, whitespaceFormatterFormat, 0⟩

/-- Model of `Engine.Register`: append, then bubble the new formatter left past
every formatter of strictly smaller priority (the loop swaps while
`priority > predecessor.priority` and breaks at the first that is not
smaller, i.e. past the maximal all-smaller suffix). -/
def register (fs : List NodeFormatter) (f : NodeFormatter) : List NodeFormatter :=
  let suffix := fs.reverse.takeWhile fun g => g.priority < f.priority
  let front := fs.reverse.dropWhile fun g => g.priority < f.priority
  front.reverse ++ f :: suffix.reverse

/-- Model of `Engine.RegisterDefaults`: register the six built-in formatters in
order. -/
def registerDefaults (fs : List NodeFormatter) : List NodeFormatter :=
  register (register (register (register (register (register fs
    headingFormatter) paragraphFormatter) listFormatter)
    codeBlockFormatter) inlineFormatter) whitespaceFormatter

/-- The formatter list of the engine built by `formatMarkdownContent`:
`formatter.New()` already registers the defaults and the pipeline calls
`RegisterDefaults` once more, so each built-in appears twice.  All
priorities are zero, so the order is registration order. -/
def pipelineFormatters : List NodeFormatter := registerDefaults (registerDefaults [])

/-- The inner loop of `Engine.Format`: the first registered formatter that
claims the node's type fires (then `break`); a node claimed by no formatter
is left unchanged. -/
def applyFirst (fs : List NodeFormatter) (cfg : Config) (n : Node) :
    Except String Node :=
  match fs.find? (fun f => f.canFormat (nodeType n)) with
  | none => .ok n
  | some f => f.format cfg n

/-- The walker loop of `Engine.Format` over a node sequence: apply the
first matching formatter to each node in order, aborting on the first
failure. -/
def engineFormatNodes (fs : List NodeFormatter) (cfg : Config) :
    List Node → Except String (List Node)
  | [] => .ok []
  | n :: ns =>
    match applyFirst fs cfg n with
    | .error e => .error e
    | .ok n1 =>
      match engineFormatNodes fs cfg ns with
      | .error e => .error e
      | .ok ns1 => .ok (n1 :: ns1)

/-- The nodes to which `Engine.Format` actually applies a formatter before
returning: the whole walker sequence on success, or the prefix up to and
including the failing node. -/
def visitedNodes (fs : List NodeFormatter) (cfg : Config) :
    List Node → List Node
  | [] => []
  | n :: ns =>
    match applyFirst fs cfg n with
    | .error _ => [n]
    | .ok _ => n :: visitedNodes fs cfg ns

/-- Model of `Engine.Format` on a document: run the walker sequence (document node
followed by the top-level children) and return the tree that results from
the in-place mutations — the document with the processed top-level nodes as
children (the document node itself is only touched by the whitespace
formatter's no-op). -/
def engineFormatDoc (fs : List NodeFormatter) (cfg : Config)
    (children : List Node) : Except String (List Node) :=
  match engineFormatNodes fs cfg (walkerNodes children) with
  | .error e => .error e
  | .ok processed => .ok (processed.drop 1)

/-- Model of `formatMarkdownContent` after parsing: format the tree with the
pipeline's engine, then render it; either failure aborts the pipeline. -/
def formatMarkdownContent (fs : List NodeFormatter) (cfg : Config)
    (children : List Node) : Except String Str :=
  match engineFormatDoc fs cfg children with
  | .error e => .error e
  | .ok children1 => Render cfg children1

/-! ## Helper lemmas: the greedy wrap loop -/

theorem wrapLoop_ne_nil (w : Int) (cur : Str) (toks : List Str) :
    wrapLoop w cur toks ≠ [] := by
  induction toks generalizing cur with
  | nil => simp [wrapLoop]
  | cons tok rest ih =>
    rw [wrapLoop]
    split
    · simp
    · exact ih _

/-- Every line the greedy loop emits either fits in the width or is a
single oversized token. -/
theorem wrapLoop_bound (T : List Str) (w : Int) (toks : List Str) (cur : Str)
    (htoks : ∀ t ∈ toks, t ∈ T)
    (hcur : (cur.length : Int) ≤ w ∨ (cur ∈ T ∧ w < cur.length)) :
    ∀ l ∈ wrapLoop w cur toks, (l.length : Int) ≤ w ∨ (l ∈ T ∧ w < l.length) := by
  induction toks generalizing cur with
  | nil =>
    intro l hl
    rw [wrapLoop] at hl
    simp only [List.mem_singleton] at hl
    subst hl
    exact hcur
  | cons tok rest ih =>
    intro l hl
    have htok : tok ∈ T := htoks tok (List.mem_cons_self _ _)
    have hrest : ∀ t ∈ rest, t ∈ T := fun t ht => htoks t (List.mem_cons_of_mem _ ht)
    have htokQ : ((tok.length : Int) ≤ w ∨ (tok ∈ T ∧ w < tok.length)) := by
      rcases le_or_lt (tok.length : Int) w with h1 | h1
      · exact Or.inl h1
      · exact Or.inr ⟨htok, h1⟩
    rw [wrapLoop] at hl
    split at hl
    · rcases List.mem_cons.mp hl with rfl | hl'
      · exact hcur
      · exact ih tok hrest htokQ l hl'
    · rename_i hcond
      split at hl
      · rename_i hpos
        refine ih _ hrest ?_ l hl
        left
        push_neg at hcond
        have hle := hcond hpos
        simp only [List.length_append, List.length_cons]
        push_cast
        omega
      · exact ih tok hrest htokQ l hl

/-- The current line under construction survives, extended, into one of
the emitted lines. -/
theorem wrapLoop_cur_mem (w : Int) (toks : List Str) (cur : Str) :
    ∃ l ∈ wrapLoop w cur toks, ∃ a b, l = a ++ cur ++ b := by
  induction toks generalizing cur with
  | nil =>
    refine ⟨cur, ?_, [], [], by simp⟩
    rw [wrapLoop]; simp
  | cons tok rest ih =>
    rw [wrapLoop]
    split
    · exact ⟨cur, List.mem_cons_self _ _, [], [], by simp⟩
    · split
      · obtain ⟨l, hl, a, b, hab⟩ := ih (cur ++ ' ' :: tok)
        exact ⟨l, hl, a, ' ' :: tok ++ b, by simp [hab]⟩
      · rename_i hpos
        have : cur = [] := by
          cases cur with
          | nil => rfl
          | cons c cs => exact absurd (by simp) hpos
        subst this
        obtain ⟨l, hl, a, b, hab⟩ := ih tok
        exact ⟨l, hl, a ++ tok, b, by simp [hab]⟩

/-- Every token appears unsplit inside one of the emitted lines. -/
theorem wrapLoop_token_intact (w : Int) (toks : List Str) (cur : Str) :
    ∀ t ∈ toks, ∃ l ∈ wrapLoop w cur toks, ∃ a b, l = a ++ t ++ b := by
  induction toks generalizing cur with
  | nil => intro t ht; simp at ht
  | cons tok rest ih =>
    intro t ht
    rcases List.mem_cons.mp ht with rfl | ht'
    · rw [wrapLoop]
      split
      · obtain ⟨l, hl, a, b, hab⟩ := wrapLoop_cur_mem w rest t
        exact ⟨l, List.mem_cons_of_mem _ hl, a, b, hab⟩
      · split
        · obtain ⟨l, hl, a, b, hab⟩ := wrapLoop_cur_mem w rest (cur ++ ' ' :: t)
          exact ⟨l, hl, a ++ cur ++ [' '], b, by simp [hab]⟩
        · obtain ⟨l, hl, a, b, hab⟩ := wrapLoop_cur_mem w rest t
          exact ⟨l, hl, a, b, hab⟩
    · rw [wrapLoop]
      split
      · obtain ⟨l, hl, a, b, hab⟩ := ih tok t ht'
        exact ⟨l, List.mem_cons_of_mem _ hl, a, b, hab⟩
      · split
        · exact ih _ t ht'
        · exact ih tok t ht'

/-- Lines built from newline-free pieces stay newline-free. -/
theorem wrapLoop_no_newline (w : Int) (toks : List Str) (cur : Str)
    (htoks : ∀ t ∈ toks, '\n' ∉ t) (hcur : '\n' ∉ cur) :
    ∀ l ∈ wrapLoop w cur toks, '\n' ∉ l := by
  induction toks generalizing cur with
  | nil =>
    intro l hl
    rw [wrapLoop] at hl
    simp only [List.mem_singleton] at hl
    subst hl; exact hcur
  | cons tok rest ih =>
    intro l hl
    have htok : '\n' ∉ tok := htoks tok (List.mem_cons_self _ _)
    have hrest : ∀ t ∈ rest, '\n' ∉ t := fun t ht => htoks t (List.mem_cons_of_mem _ ht)
    rw [wrapLoop] at hl
    split at hl
    · rcases List.mem_cons.mp hl with rfl | hl'
      · exact hcur
      · exact ih tok hrest htok l hl'
    · split at hl
      · refine ih _ hrest ?_ l hl
        intro hmem
        rcases List.mem_append.mp hmem with h | h
        · exact hcur h
        · rcases List.mem_cons.mp h with h | h
          · exact absurd h.symm (by decide)
          · exact htok h
      · exact ih tok hrest htok l hl

/-! ## Helper lemmas: fields and line splitting -/

theorem fieldsCAux_no_space (cs : Str) (w : Str)
    (hw : ∀ c ∈ w, goIsSpace c = false) :
    ∀ t ∈ fieldsCAux w cs, ∀ c ∈ t, goIsSpace c = false := by
  induction cs generalizing w with
  | nil =>
    intro t ht c hc
    rw [fieldsCAux] at ht
    split at ht
    · simp at ht
    · simp only [List.mem_singleton] at ht
      subst ht
      exact hw c (List.mem_reverse.mp hc)
  | cons d ds ih =>
    intro t ht c hc
    rw [fieldsCAux] at ht
    split at ht
    · split at ht
      · exact ih [] (by simp) t ht c hc
      · rcases List.mem_cons.mp ht with rfl | ht'
        · exact hw c (List.mem_reverse.mp hc)
        · exact ih [] (by simp) t ht' c hc
    · rename_i hd
      refine ih (d :: w) ?_ t ht c hc
      intro e he
      rcases List.mem_cons.mp he with rfl | he'
      · simpa using hd
      · exact hw e he'

/-- Field tokens of `strings.Fields` contain no whitespace characters. -/
theorem fieldsC_no_space (cs : Str) :
    ∀ t ∈ fieldsC cs, ∀ c ∈ t, goIsSpace c = false :=
  fieldsCAux_no_space cs [] (by simp)

theorem splitLinesC_ne_nil (cs : Str) : splitLinesC cs ≠ [] := by
  induction cs with
  | nil => simp [splitLinesC]
  | cons c cs ih =>
    rw [splitLinesC]
    split
    · simp
    · cases h : splitLinesC cs with
      | nil => exact absurd h ih
      | cons l ls => simp [h]

/-- Splitting after a newline-free prefix. -/
theorem splitLinesC_append_newline (a b : Str) (ha : '\n' ∉ a) :
    splitLinesC (a ++ '\n' :: b) = a :: splitLinesC b := by
  induction a with
  | nil => simp [splitLinesC]
  | cons c cs ih =>
    have hc : c ≠ '\n' := fun h => ha (h ▸ List.mem_cons_self _ _)
    have hcs : '\n' ∉ cs := fun h => ha (List.mem_cons_of_mem _ h)
    simp only [List.cons_append, splitLinesC, hc, if_false]
    rw [show cs.append ('\n' :: b) = cs ++ '\n' :: b from rfl, ih hcs]

/-- A newline-free string is a single line. -/
theorem splitLinesC_no_newline (a : Str) (ha : '\n' ∉ a) :
    splitLinesC a = [a] := by
  induction a with
  | nil => simp [splitLinesC]
  | cons c cs ih =>
    have hc : c ≠ '\n' := fun h => ha (h ▸ List.mem_cons_self _ _)
    have hcs : '\n' ∉ cs := fun h => ha (List.mem_cons_of_mem _ h)
    rw [splitLinesC, if_neg (by simpa using hc), ih hcs]

/-- Model of `strings.Split` is a left inverse of `strings.Join` on nonempty lists
of newline-free lines. -/
theorem splitLinesC_joinLinesC (ls : List Str) (hne : ls ≠ [])
    (hnl : ∀ l ∈ ls, '\n' ∉ l) : splitLinesC (joinLinesC ls) = ls := by
  induction ls with
  | nil => exact absurd rfl hne
  | cons l ls ih =>
    cases ls with
    | nil =>
      simp only [joinLinesC, List.intercalate, List.intersperse, List.flatten]
      simpa using splitLinesC_no_newline l (hnl l (List.mem_cons_self _ _))
    | cons l2 ls2 =>
      have h1 : joinLinesC (l :: l2 :: ls2) = l ++ '\n' :: joinLinesC (l2 :: ls2) := by
        simp [joinLinesC, List.intercalate, List.intersperse]
      rw [h1, splitLinesC_append_newline l _ (hnl l (List.mem_cons_self _ _))]
      rw [ih (by simp) (fun x hx => hnl x (List.mem_cons_of_mem _ hx))]

/-- Every line produced by `strings.Split(text, "\n")` is newline-free. -/
theorem splitLinesC_mem_no_newline (cs : Str) :
    ∀ l ∈ splitLinesC cs, '\n' ∉ l := by
  induction cs with
  | nil => intro l hl; simp [splitLinesC] at hl; simp [hl]
  | cons c cs ih =>
    intro l hl
    rw [splitLinesC] at hl
    split at hl
    · rcases List.mem_cons.mp hl with rfl | hl'
      · simp
      · exact ih l hl'
    · rename_i hc
      cases h : splitLinesC cs with
      | nil => exact absurd h (splitLinesC_ne_nil cs)
      | cons m ms =>
        rw [h] at hl
        rcases List.mem_cons.mp hl with rfl | hl'
        · intro hmem
          rcases List.mem_cons.mp hmem with h1 | h1
          · exact hc h1.symm
          · exact ih m (h ▸ List.mem_cons_self _ _) h1
        · exact ih l (h ▸ List.mem_cons_of_mem _ hl')

/-! ## Helper lemmas: link-free texts -/

theorem hasLink_cons_false {c : Char} {cs : Str} (h : hasLink (c :: cs) = false) :
    matchLinkAt (c :: cs) = none ∧ hasLink cs = false := by
  rw [hasLink] at h
  simp only [Bool.or_eq_false_iff] at h
  exact ⟨Option.not_isSome_iff_eq_none.mp (by simp [h.1]), h.2⟩

/-- On a text with no link match the tokenizer degenerates to
`strings.Fields`. -/
theorem tokenizeAuxFuel_no_link (fuel : Nat) (acc cs : Str)
    (h : hasLink cs = false) :
    tokenizeAuxFuel fuel acc cs = fieldsC (acc.reverse ++ cs) := by
  induction fuel generalizing acc cs with
  | zero => rw [tokenizeAuxFuel]
  | succ fuel ih =>
    cases cs with
    | nil => rw [tokenizeAuxFuel]; simp
    | cons c cs =>
      obtain ⟨hnone, hcs⟩ := hasLink_cons_false h
      rw [tokenizeAuxFuel, hnone, ih (c :: acc) cs hcs]
      simp

theorem tokenizeWithLinks_no_link (cs : Str) (h : containsMarkdownLinks cs = false) :
    tokenizeWithLinks cs = fieldsC cs := by
  rw [tokenizeWithLinks, tokenizeAuxFuel_no_link _ _ _ h]
  simp

theorem matchBroken1At_isSome {cs : Str} {r : Str × Str}
    (h : matchBroken1At cs = some r) : (matchLinkAt cs).isSome = true := by
  cases cs with
  | nil => simp [matchBroken1At] at h
  | cons c rest =>
    by_cases hc : c = '['
    · subst hc
      rw [matchBroken1At] at h
      rw [matchLinkAt]
      split at h
      · split at h
        · split at h
          · simp
          · exact absurd h (by simp)
        · exact absurd h (by simp)
      · exact absurd h (by simp)
    · have hnone : matchBroken1At (c :: rest) = none := by
        rw [matchBroken1At]
        intro rest1 heq
        injection heq with h1
        exact hc h1
      rw [hnone] at h
      exact absurd h (by simp)

theorem matchBroken2At_isSome {cs : Str} {r : Str × Str}
    (h : matchBroken2At cs = some r) : (matchLinkAt cs).isSome = true := by
  cases cs with
  | nil => simp [matchBroken2At] at h
  | cons c rest =>
    by_cases hc : c = '['
    · subst hc
      rw [matchBroken2At] at h
      rw [matchLinkAt]
      split at h
      · split at h
        · simp
        · exact absurd h (by simp)
      · exact absurd h (by simp)
    · have hnone : matchBroken2At (c :: rest) = none := by
        rw [matchBroken2At]
        intro rest1 heq
        injection heq with h1
        exact hc h1
      rw [hnone] at h
      exact absurd h (by simp)

theorem replaceBroken1Fuel_no_link (fuel : Nat) (cs : Str)
    (h : hasLink cs = false) : replaceBroken1Fuel fuel cs = cs := by
  induction fuel generalizing cs with
  | zero => rw [replaceBroken1Fuel]
  | succ fuel ih =>
    cases cs with
    | nil => rw [replaceBroken1Fuel]
    | cons c cs =>
      obtain ⟨hnone, hcs⟩ := hasLink_cons_false h
      cases hm : matchBroken1At (c :: cs) with
      | some r =>
        have := matchBroken1At_isSome hm
        rw [hnone] at this
        simp at this
      | none => rw [replaceBroken1Fuel, hm, ih cs hcs]

theorem replaceBroken2Fuel_no_link (fuel : Nat) (cs : Str)
    (h : hasLink cs = false) : replaceBroken2Fuel fuel cs = cs := by
  induction fuel generalizing cs with
  | zero => rw [replaceBroken2Fuel]
  | succ fuel ih =>
    cases cs with
    | nil => rw [replaceBroken2Fuel]
    | cons c cs =>
      obtain ⟨hnone, hcs⟩ := hasLink_cons_false h
      cases hm : matchBroken2At (c :: cs) with
      | some r =>
        have := matchBroken2At_isSome hm
        rw [hnone] at this
        simp at this
      | none => rw [replaceBroken2Fuel, hm, ih cs hcs]

/-- Link repair leaves a text without any link-pattern match unchanged:
both broken-link patterns only match where the plain link pattern does. -/
theorem fixBrokenLinks_no_link (cs : Str)
    (h : containsMarkdownLinks cs = false) : fixBrokenLinks cs = cs := by
  rw [fixBrokenLinks, replaceBroken1Fuel_no_link _ _ h,
    replaceBroken2Fuel_no_link _ _ h]

/-! ## Helper lemmas: blank-line collapsing -/

/-- Length of the longest run of blank (whitespace-only) lines, `cur` being
the length of the run currently open. -/
def maxBlankRunAux : List Str → Nat → Nat
  | [], cur => cur
  | l :: ls, cur =>
    if trimC l = [] then maxBlankRunAux ls (cur + 1)
    else max cur (maxBlankRunAux ls 0)

/-- Length of the longest run of blank lines in a line list. -/
def maxBlankRun (ls : List Str) : Nat := maxBlankRunAux ls 0

/-- The lines of a rendered text: none for the empty text, otherwise the
`strings.Split(text, "\n")` lines. -/
def outputLines (s : Str) : List Str := if s = [] then [] else splitLinesC s

theorem nblGo_bound (K : Int) (hK : 0 ≤ K) (lines : List Str) :
    ∀ (k cur : Nat), cur ≤ k → (cur : Int) ≤ K →
      (maxBlankRunAux (nblGo K lines k) cur : Int) ≤ K := by
  induction lines with
  | nil =>
    intro k cur _ hcurK
    rw [nblGo, maxBlankRunAux]
    exact hcurK
  | cons l ls ih =>
    intro k cur hck hcurK
    rw [nblGo]
    split
    · rename_i hblank
      split
      · rename_i hkeep
        rw [maxBlankRunAux, if_pos hblank]
        exact ih (k + 1) (cur + 1) (by omega) (by push_cast; omega)
      · rename_i hdrop
        exact ih (k + 1) cur (by omega) hcurK
    · rename_i hblank
      rw [maxBlankRunAux, if_neg hblank]
      have h2 := ih 0 0 (le_refl 0) (by exact_mod_cast hK)
      push_cast at hcurK h2 ⊢
      omega

theorem nblGo_mem (K : Int) (lines : List Str) :
    ∀ (k : Nat), ∀ l ∈ nblGo K lines k, l ∈ lines := by
  induction lines with
  | nil => intro k l hl; rw [nblGo] at hl; simp at hl
  | cons m ms ih =>
    intro k l hl
    rw [nblGo] at hl
    split at hl
    · split at hl
      · rcases List.mem_cons.mp hl with rfl | hl'
        · exact List.mem_cons_self _ _
        · exact List.mem_cons_of_mem _ (ih _ l hl')
      · exact List.mem_cons_of_mem _ (ih _ l hl)
    · rcases List.mem_cons.mp hl with rfl | hl'
      · exact List.mem_cons_self _ _
      · exact List.mem_cons_of_mem _ (ih _ l hl')

/-- Model of `joinLinesC` only produces the empty text from no lines or from the
single empty line. -/
theorem joinLinesC_eq_nil {ls : List Str} (h : joinLinesC ls = []) :
    ls = [] ∨ ls = [[]] := by
  cases ls with
  | nil => exact Or.inl rfl
  | cons l ls2 =>
    cases ls2 with
    | nil =>
      simp only [joinLinesC, List.intercalate, List.intersperse, List.flatten,
        List.append_nil] at h
      right
      simp [h]
    | cons l2 ls3 =>
      have : joinLinesC (l :: l2 :: ls3) = l ++ '\n' :: joinLinesC (l2 :: ls3) := by
        simp [joinLinesC, List.intercalate, List.intersperse]
      rw [this] at h
      exact absurd h (by simp)

/-! ## Helper lemmas: the engine walk -/

theorem engineFormatNodes_ok_visited (fs : List NodeFormatter) (cfg : Config)
    (ns : List Node) (out : List Node)
    (h : engineFormatNodes fs cfg ns = .ok out) :
    visitedNodes fs cfg ns = ns := by
  induction ns generalizing out with
  | nil => rw [visitedNodes]
  | cons n ns ih =>
    rw [engineFormatNodes] at h
    rw [visitedNodes]
    cases ha : applyFirst fs cfg n with
    | error e => rw [ha] at h; exact absurd h (by simp)
    | ok n1 =>
      rw [ha] at h
      cases hrest : engineFormatNodes fs cfg ns with
      | error e => rw [hrest] at h; exact absurd h (by simp)
      | ok ns1 => rw [ih ns1 hrest]

theorem engineFormatNodes_error_prefix (fs : List NodeFormatter) (cfg : Config)
    (pre : List Node) (n : Node) (post : List Node) (e : String)
    (hpre : ∀ m ∈ pre, ∃ m1, applyFirst fs cfg m = .ok m1)
    (hn : applyFirst fs cfg n = .error e) :
    engineFormatNodes fs cfg (pre ++ n :: post) = .error e := by
  induction pre with
  | nil =>
    rw [List.nil_append, engineFormatNodes, hn]
  | cons m pre ih =>
    obtain ⟨m1, hm1⟩ := hpre m (List.mem_cons_self _ _)
    rw [List.cons_append, engineFormatNodes, hm1,
      ih (fun x hx => hpre x (List.mem_cons_of_mem _ hx))]

/-! ## Helper lemmas: the renderer never fails -/

mutual
theorem renderNodeE_ok (cfg : Config) (n : Node) (d : Nat) :
    ∃ s, renderNodeE cfg n d = .ok s := by
  cases n with
  | document children => exact ⟨[], by rw [renderNodeE]⟩
  | heading level text style => exact ⟨_, by rw [renderNodeE]⟩
  | paragraph text => exact ⟨_, by rw [renderNodeE]⟩
  | list ordered items marker =>
    obtain ⟨s, hs⟩ := renderListE_ok cfg items d
    exact ⟨s, by rw [renderNodeE]; exact hs⟩
  | listItem item =>
    obtain ⟨s, hs⟩ := renderListItemE_ok cfg item d
    exact ⟨s, by rw [renderNodeE]; exact hs⟩
  | codeBlock language content fenced fence => exact ⟨_, by rw [renderNodeE]⟩
  | text content => exact ⟨_, by rw [renderNodeE]⟩

theorem renderListE_ok (cfg : Config) (items : List ListItem) (d : Nat) :
    ∃ s, renderListE cfg items d = .ok s := by
  obtain ⟨s, hs⟩ := renderItemsE_ok cfg items (d + 1)
  exact ⟨s ++ ['\n'], by rw [renderListE, hs]⟩

theorem renderItemsE_ok (cfg : Config) (items : List ListItem) (d : Nat) :
    ∃ s, renderItemsE cfg items d = .ok s := by
  cases items with
  | nil => exact ⟨[], by rw [renderItemsE]⟩
  | cons item items =>
    obtain ⟨s1, hs1⟩ := renderListItemE_ok cfg item d
    obtain ⟨s2, hs2⟩ := renderItemsE_ok cfg items d
    exact ⟨s1 ++ s2, by rw [renderItemsE, hs1, hs2]⟩

theorem renderListItemE_ok (cfg : Config) (item : ListItem) (d : Nat) :
    ∃ s, renderListItemE cfg item d = .ok s := by
  cases item with
  | mk text marker children =>
    by_cases hc : children.isEmpty
    · exact ⟨_, by rw [renderListItemE]; rw [if_pos hc]⟩
    · obtain ⟨s, hs⟩ := renderChildNodesE_ok cfg children d
      exact ⟨_, by rw [renderListItemE]; rw [if_neg hc, hs]⟩

theorem renderChildNodesE_ok (cfg : Config) (children : List Node) (d : Nat) :
    ∃ s, renderChildNodesE cfg children d = .ok s := by
  cases children with
  | nil => exact ⟨[], by rw [renderChildNodesE]⟩
  | cons n ns =>
    obtain ⟨s1, hs1⟩ := renderNodeE_ok cfg n d
    obtain ⟨s2, hs2⟩ := renderChildNodesE_ok cfg ns d
    exact ⟨s1 ++ s2, by rw [renderChildNodesE, hs1, hs2]⟩
end

theorem splitLinesC_join_append_two (ls : List Str) (hne : ls ≠ [])
    (hnl : ∀ l ∈ ls, '\n' ∉ l) :
    splitLinesC (joinLinesC ls ++ '\n' :: '\n' :: []) = ls ++ [[], []] := by
  induction ls with
  | nil => exact absurd rfl hne
  | cons l ls ih =>
    cases ls with
    | nil =>
      have hj : joinLinesC [l] = l := by
        simp [joinLinesC, List.intercalate, List.intersperse]
      rw [hj, splitLinesC_append_newline l _ (hnl l (List.mem_cons_self _ _))]
      simp [splitLinesC]
    | cons l2 ls2 =>
      have hj : joinLinesC (l :: l2 :: ls2) = l ++ '\n' :: joinLinesC (l2 :: ls2) := by
        simp [joinLinesC, List.intercalate, List.intersperse]
      rw [hj]
      rw [show (l ++ '\n' :: joinLinesC (l2 :: ls2)) ++ '\n' :: '\n' :: [] =
        l ++ '\n' :: (joinLinesC (l2 :: ls2) ++ '\n' :: '\n' :: []) by simp]
      rw [splitLinesC_append_newline l _ (hnl l (List.mem_cons_self _ _))]
      rw [ih (by simp) (fun x hx => hnl x (List.mem_cons_of_mem _ hx))]
      simp

/-! ## Claim C1: setext underline length -/

/-- Claim C1, counterexample.  The claim (and the spec scenario) say the
level-1 setext heading `"Hi"` renders as `"Hi\n===\n\n"` with underline
length `max(3, 2) = 3`; in `renderHeading` the length is bumped to 3 only
when the trimmed text is empty, so `"Hi"` gets a 2-character underline. -/
theorem renderHeading_setext_hi_counterexample :
    renderHeading 1 "Hi".toList "setext".toList = "Hi\n==\n\n".toList ∧
    renderHeading 1 "Hi".toList "setext".toList ≠ "Hi\n===\n\n".toList := by
  constructor
  · decide
  · decide

/-- Claim C1, amended.  A level-1 setext heading renders as the text, a
newline, an underline of `=` repeated trimmed-text-length times (3 only
when the trimmed text is empty), and a blank line; in particular `"Hi"`
renders as `"Hi\n==\n\n"`. -/
theorem renderHeading_setext_underline :
    (∀ text : Str,
      renderHeading 1 text "setext".toList =
        text ++ '\n' ::
          List.replicate
            (if (trimC text).length = 0 then 3 else (trimC text).length) '=' ++
          '\n' :: '\n' :: []) ∧
    renderHeading 1 "Hi".toList "setext".toList = "Hi\n==\n\n".toList := by
  constructor
  · intro text
    rw [renderHeading, if_pos ⟨rfl, by norm_num⟩]
    norm_num
  · decide

/-! ## Claim C6: heading level clamp -/

/-- Claim C6.  With level normalization enabled the heading rule clamps the
level to `min(6, max(1, L))` (and trims the text, adjusts the style). -/
theorem headingFormatter_clamps_level (cfg : Config) (level : Int)
    (text style : Str) (h : cfg.heading.normalizeLevels = true) :
    ∃ t1 s1, headingFormatterFormat cfg (.heading level text style) =
      .ok (.heading (min 6 (max 1 level)) t1 s1) := by
  refine ⟨trimC text, ?_, ?_⟩
  · exact if cfg.heading.style = atxStyle then atxStyle
      else if cfg.heading.style = setextStyle then
        if level ≤ 2 then setextStyle else atxStyle
      else style
  rw [headingFormatterFormat]
  simp only [h, if_true]
  have heq : (if (if level > 6 then (6 : Int) else level) < 1 then (1 : Int)
      else if level > 6 then 6 else level) = min 6 (max 1 level) := by
    split_ifs <;> omega
  rw [heq]

/-- Claim C6, witness. -/
theorem headingFormatter_clamps_level_witness :
    Config.default.heading.normalizeLevels = true ∧
    ∃ t1 s1, headingFormatterFormat Config.default (.heading 9 "T".toList atxStyle) =
      .ok (.heading (min 6 (max 1 9)) t1 s1) :=
  ⟨rfl, headingFormatter_clamps_level Config.default 9 "T".toList atxStyle rfl⟩

/-! ## Claim C7: blank-line collapse -/

/-- Claim C7.  For `maxBlankLines = K ≥ 0`, no run of consecutive blank lines
in the output of `normalizeBlankLines` exceeds `K`; for `K < 0` the buffer
is returned unchanged. -/
theorem normalizeBlankLines_bound (text : Str) (K : Int) :
    (0 ≤ K → (maxBlankRun (outputLines (normalizeBlankLines text K)) : Int) ≤ K) ∧
    (K < 0 → normalizeBlankLines text K = text) := by
  constructor
  · intro hK
    rw [normalizeBlankLines, if_neg (by omega)]
    by_cases hj : joinLinesC (nblGo K (splitLinesC text) 0) = []
    · rw [hj]
      simpa [outputLines, maxBlankRun, maxBlankRunAux] using hK
    · rw [outputLines, if_neg hj]
      have hnn : nblGo K (splitLinesC text) 0 ≠ [] := by
        intro h0
        rw [h0] at hj
        exact hj (by simp [joinLinesC, List.intercalate])
      have hnl : ∀ l ∈ nblGo K (splitLinesC text) 0, '\n' ∉ l := fun l hl =>
        splitLinesC_mem_no_newline text l (nblGo_mem K (splitLinesC text) 0 l hl)
      rw [splitLinesC_joinLinesC _ hnn hnl]
      exact nblGo_bound K hK (splitLinesC text) 0 0 (le_refl 0) (by exact_mod_cast hK)
  · intro hK
    rw [normalizeBlankLines, if_pos hK]

/-- Claim C7, witness. -/
theorem normalizeBlankLines_bound_witness :
    ((0 : Int) ≤ 1 ∧
      (maxBlankRun (outputLines (normalizeBlankLines "a\n\n\n\nb".toList 1)) : Int) ≤ 1) ∧
    ((-1 : Int) < 0 ∧ normalizeBlankLines "a\n\n\nb".toList (-1) = "a\n\n\nb".toList) :=
  ⟨⟨by decide, (normalizeBlankLines_bound "a\n\n\n\nb".toList 1).1 (by decide)⟩,
   ⟨by decide, (normalizeBlankLines_bound "a\n\n\nb".toList (-1)).2 (by decide)⟩⟩

/-! ## Claim C9: determinism -/

/-- Claim C9.  The format-and-render pipeline is a pure function of the input
tree and configuration: equal inputs give equal output texts.  In this
embedding every core operation is a mathematical function of the tree and
the configuration alone — there is no other state to read. -/
theorem pipeline_deterministic (cfg cfg2 : Config) (children children2 : List Node)
    (hcfg : cfg = cfg2) (hch : children = children2) :
    formatMarkdownContent pipelineFormatters cfg children =
      formatMarkdownContent pipelineFormatters cfg2 children2 := by
  subst hcfg
  subst hch
  rfl

/-- Claim C9, witness. -/
theorem pipeline_deterministic_witness :
    formatMarkdownContent pipelineFormatters Config.default [Node.paragraph "x".toList] =
      formatMarkdownContent pipelineFormatters Config.default [Node.paragraph "x".toList] :=
  pipeline_deterministic Config.default Config.default
    [Node.paragraph "x".toList] [Node.paragraph "x".toList] rfl rfl

/-! ## Claim C10: rendering never fails -/

/-- Claim C10.  `Render` succeeds on every tree and configuration: every
per-node branch of `renderNode`, including the default branch for
unrecognized node types, returns success, so the declared render-failure
outcome is unreachable. -/
theorem render_total (cfg : Config) (children : List Node) :
    ∃ s, Render cfg children = .ok s := by
  obtain ⟨s, hs⟩ := renderChildNodesE_ok cfg children 0
  rw [Render, renderDocumentE, hs]
  exact ⟨_, rfl⟩

/-! ## Claim C2: scope of the engine's walk -/

/-- A nested list two levels down, used to exhibit the walker's scope. -/
def exNestedList : Node := Node.list false [ListItem.mk "x".toList "-".toList []] "-".toList

/-- A top-level list whose single item carries `exNestedList` as a child. -/
def exTopList : Node :=
  Node.list false [ListItem.mk "parent".toList "-".toList [exNestedList]] "-".toList

/-- Claim C2, counterexample.  The claim says the format pass visits *every*
node of the tree, including a nested list inside a list item.  The walker
sequence of a document whose only top-level node is `exTopList` (which
contains `exNestedList` in its item's children) is just the document node
and `exTopList`: the nested list is never visited. -/
theorem walker_misses_nested_counterexample :
    walkerNodes [exTopList] = [Node.document [exTopList], exTopList] ∧
    exTopList =
      Node.list false [ListItem.mk "parent".toList "-".toList [exNestedList]] "-".toList ∧
    exNestedList ∉ walkerNodes [exTopList] := by
  refine ⟨rfl, rfl, ?_⟩
  intro h
  rw [walkerNodes] at h
  rcases List.mem_cons.mp h with h1 | h1
  · exact absurd h1 (by simp [exNestedList])
  · rcases List.mem_cons.mp h1 with h2 | h2
    · rw [exNestedList, exTopList] at h2
      simp at h2
    · simp at h2

/-- Claim C2, amended.  A successful `Engine.Format` pass applies formatters
to exactly the walker sequence — the root document node followed by the
top-level nodes, in order (each node getting the first applicable formatter
via `applyFirst`); nodes nested deeper are not visited by the walk. -/
theorem engine_visits_root_and_top_level (fs : List NodeFormatter) (cfg : Config)
    (children out : List Node)
    (h : engineFormatNodes fs cfg (walkerNodes children) = .ok out) :
    visitedNodes fs cfg (walkerNodes children) = Node.document children :: children := by
  rw [engineFormatNodes_ok_visited fs cfg _ out h, walkerNodes]

/-- Claim C2, witness. -/
theorem engine_visits_root_and_top_level_witness :
    engineFormatNodes pipelineFormatters Config.default
        (walkerNodes [Node.heading 1 "T".toList atxStyle]) =
      .ok [Node.document [Node.heading 1 "T".toList atxStyle],
           Node.heading 1 "T".toList atxStyle] ∧
    visitedNodes pipelineFormatters Config.default
        (walkerNodes [Node.heading 1 "T".toList atxStyle]) =
      Node.document [Node.heading 1 "T".toList atxStyle] ::
        [Node.heading 1 "T".toList atxStyle] :=
  ⟨rfl,
   engine_visits_root_and_top_level pipelineFormatters Config.default
     [Node.heading 1 "T".toList atxStyle] _ rfl⟩

/-! ## Claim C8: failure aborts the pass and the pipeline -/

/-- Claim C8.  If the first matching rule fails on some walker node, the
engine pass returns that failure without applying any rule to any later
node (the result does not depend on the nodes after the failing one), and
the pipeline returns the failure without rendering. -/
theorem format_failure_aborts (fs : List NodeFormatter) (cfg : Config)
    (children pre post : List Node) (n : Node) (e : String)
    (hsplit : walkerNodes children = pre ++ n :: post)
    (hpre : ∀ m ∈ pre, ∃ m1, applyFirst fs cfg m = .ok m1)
    (hn : applyFirst fs cfg n = .error e) :
    formatMarkdownContent fs cfg children = .error e ∧
    ∀ post2, engineFormatNodes fs cfg (pre ++ n :: post2) = .error e := by
  have hall : ∀ post2, engineFormatNodes fs cfg (pre ++ n :: post2) = .error e :=
    fun post2 => engineFormatNodes_error_prefix fs cfg pre n post2 e hpre hn
  refine ⟨?_, hall⟩
  rw [formatMarkdownContent, engineFormatDoc, hsplit, hall post]

/-- A rule that claims every node type and always fails, for the C8
witness. -/
def failFormatter : NodeFormatter :=
  ⟨[], fun _ => true, fun _ _ => .error "boom", 0⟩

/-- Claim C8, witness.  The failure on the very first walker node aborts the
pipeline, and the pass result is the same error whatever follows the
failing node. -/
theorem format_failure_aborts_witness :
    formatMarkdownContent [failFormatter] Config.default [Node.paragraph "x".toList] =
      .error "boom" ∧
    engineFormatNodes [failFormatter] Config.default
        ([] ++ Node.document [Node.paragraph "x".toList] :: [Node.heading 1 [] []]) =
      .error "boom" :=
  ⟨(format_failure_aborts [failFormatter] Config.default [Node.paragraph "x".toList]
      [] [Node.paragraph "x".toList] (Node.document [Node.paragraph "x".toList]) "boom"
      rfl (by simp) rfl).1,
   (format_failure_aborts [failFormatter] Config.default [Node.paragraph "x".toList]
      [] [Node.paragraph "x".toList] (Node.document [Node.paragraph "x".toList]) "boom"
      rfl (by simp) rfl).2 [Node.heading 1 [] []]⟩

/-! ## Helper lemmas: paragraph normalization leaves no trailing spaces -/

theorem fieldsCAux_ne_nil (cs : Str) : ∀ (w : Str), ∀ t ∈ fieldsCAux w cs, t ≠ [] := by
  induction cs with
  | nil =>
    intro w t ht
    rw [fieldsCAux] at ht
    split at ht
    · simp at ht
    · rename_i hw
      simp only [List.mem_singleton] at ht
      subst ht
      simpa using hw
  | cons c cs ih =>
    intro w t ht
    rw [fieldsCAux] at ht
    split at ht
    · split at ht
      · exact ih [] t ht
      · rename_i hw
        rcases List.mem_cons.mp ht with rfl | ht2
        · simpa using hw
        · exact ih [] t ht2
    · exact ih (c :: w) t ht

/-- Field tokens of `strings.Fields` are nonempty. -/
theorem fieldsC_ne_nil (cs : Str) : ∀ t ∈ fieldsC cs, t ≠ [] :=
  fieldsCAux_ne_nil cs []

/-- Trimming trailing spaces and tabs is the identity on a string without
whitespace characters. -/
theorem trimRightSpaceTab_of_no_space (l : Str)
    (h : ∀ c ∈ l, goIsSpace c = false) : trimRightSpaceTab l = l := by
  rw [trimRightSpaceTab]
  cases hlr : l.reverse with
  | nil =>
    have : l = [] := by simpa using congrArg List.reverse hlr
    subst this
    simp
  | cons c cs =>
    have hc : c ∈ l := by
      rw [← List.mem_reverse, hlr]
      exact List.mem_cons_self _ _
    have hns := h c hc
    have h1 : c ≠ ' ' := fun hh => by subst hh; simp [goIsSpace] at hns
    have h2 : c ≠ '\t' := fun hh => by subst hh; simp [goIsSpace] at hns
    have hdw : List.dropWhile (fun c => c = ' ' || c = '\t') (c :: cs) = c :: cs := by
      simp [List.dropWhile_cons, h1, h2]
    rw [hdw, ← hlr, List.reverse_reverse]

/-- Trimming trailing spaces and tabs is the identity on `a ++ b` when it
is the identity on the nonempty `b`. -/
theorem trimRightSpaceTab_append (a b : Str) (hb : b ≠ [])
    (h : trimRightSpaceTab b = b) : trimRightSpaceTab (a ++ b) = a ++ b := by
  have h1 : b.reverse.dropWhile (fun c => c = ' ' || c = '\t') = b.reverse := by
    have h2 := congrArg List.reverse h
    rw [trimRightSpaceTab, List.reverse_reverse] at h2
    exact h2
  cases hbr : b.reverse with
  | nil => exact absurd (by simpa using congrArg List.reverse hbr) hb
  | cons c cs =>
    by_cases hsp : c = ' ' ∨ c = '\t'
    · rw [hbr, List.dropWhile_cons] at h1
      have hcond : ((c = ' ' || c = '\t') : Bool) = true := by
        rcases hsp with rfl | rfl <;> simp
      simp only [hcond, if_true] at h1
      have hsuf :=
        (List.dropWhile_suffix (l := cs) (fun c => c = ' ' || c = '\t')).length_le
      have hlen := congrArg List.length h1
      simp only [List.length_cons] at hlen
      omega
    · have hs1 : c ≠ ' ' := fun hh => hsp (Or.inl hh)
      have hs2 : c ≠ '\t' := fun hh => hsp (Or.inr hh)
      have hdw : List.dropWhile (fun c => c = ' ' || c = '\t')
          (c :: (cs ++ a.reverse)) = c :: (cs ++ a.reverse) := by
        simp [List.dropWhile_cons, hs1, hs2]
      rw [trimRightSpaceTab, List.reverse_append, hbr, List.cons_append, hdw,
        ← List.cons_append, ← hbr, ← List.reverse_append, List.reverse_reverse]

/-- Characters of a space-joined field list are the space or field
characters. -/
theorem mem_intercalate_space {c : Char} (fs : List Str)
    (h : c ∈ List.intercalate [' '] fs) : c = ' ' ∨ ∃ t ∈ fs, c ∈ t := by
  induction fs with
  | nil => simp [List.intercalate] at h
  | cons f fs ih =>
    cases fs with
    | nil =>
      right
      exact ⟨f, by simp, by simpa [List.intercalate, List.intersperse] using h⟩
    | cons f2 rest =>
      rw [show List.intercalate [' '] (f :: f2 :: rest) =
          f ++ ' ' :: List.intercalate [' '] (f2 :: rest) from by
        simp [List.intercalate, List.intersperse]] at h
      rcases List.mem_append.mp h with h1 | h1
      · right; exact ⟨f, by simp, h1⟩
      · rcases List.mem_cons.mp h1 with rfl | h2
        · left; rfl
        · rcases ih h2 with h3 | ⟨t, ht, hc⟩
          · left; exact h3
          · right; exact ⟨t, List.mem_cons_of_mem _ ht, hc⟩

/-- A space-join of nonempty whitespace-free fields has no trailing space
or tab: its last character is the last character of the last field. -/
theorem intercalate_space_trimRight (fs : List Str)
    (hne : ∀ t ∈ fs, t ≠ []) (hns : ∀ t ∈ fs, ∀ c ∈ t, goIsSpace c = false) :
    trimRightSpaceTab (List.intercalate [' '] fs) = List.intercalate [' '] fs := by
  induction fs with
  | nil => simp [List.intercalate, trimRightSpaceTab]
  | cons f fs ih =>
    cases fs with
    | nil =>
      rw [show List.intercalate [' '] [f] = f from by
        simp [List.intercalate, List.intersperse]]
      exact trimRightSpaceTab_of_no_space f (hns f (List.mem_cons_self _ _))
    | cons f2 rest =>
      rw [show List.intercalate [' '] (f :: f2 :: rest) =
          f ++ ' ' :: List.intercalate [' '] (f2 :: rest) from by
        simp [List.intercalate, List.intersperse]]
      have hJ : trimRightSpaceTab (List.intercalate [' '] (f2 :: rest)) =
          List.intercalate [' '] (f2 :: rest) :=
        ih (fun t ht => hne t (List.mem_cons_of_mem _ ht))
          (fun t ht => hns t (List.mem_cons_of_mem _ ht))
      have hJne : List.intercalate [' '] (f2 :: rest) ≠ [] := by
        cases rest with
        | nil =>
          simpa [List.intercalate, List.intersperse] using
            hne f2 (List.mem_cons_of_mem _ (List.mem_cons_self _ _))
        | cons g gs =>
          rw [show List.intercalate [' '] (f2 :: g :: gs) =
              f2 ++ ' ' :: List.intercalate [' '] (g :: gs) from by
            simp [List.intercalate, List.intersperse]]
          simp
      rw [show f ++ ' ' :: List.intercalate [' '] (f2 :: rest) =
          (f ++ [' ']) ++ List.intercalate [' '] (f2 :: rest) from by simp]
      exact trimRightSpaceTab_append (f ++ [' ']) _ hJne hJ

/-- Every line of `normalizeWhitespace` output — per line a space-join of
its fields — ends free of trailing spaces and tabs. -/
theorem normalizeWhitespace_no_trailing (s : Str) :
    ∀ l ∈ splitLinesC (normalizeWhitespace s), trimRightSpaceTab l = l := by
  intro l hl
  rw [normalizeWhitespace] at hl
  have hlsne : (splitLinesC s).map
      (fun line => List.intercalate [' '] (fieldsC line)) ≠ [] := by
    cases h : splitLinesC s with
    | nil => exact absurd h (splitLinesC_ne_nil s)
    | cons x xs => simp [h]
  have hnl : ∀ m ∈ (splitLinesC s).map
      (fun line => List.intercalate [' '] (fieldsC line)), '\n' ∉ m := by
    intro m hm
    obtain ⟨line, hline, rfl⟩ := List.mem_map.mp hm
    intro hmem
    rcases mem_intercalate_space (fieldsC line) hmem with h1 | ⟨t, ht, hc⟩
    · exact absurd h1 (by decide)
    · have := fieldsC_no_space line t ht '\n' hc
      simp [goIsSpace] at this
  rw [splitLinesC_joinLinesC _ hlsne hnl] at hl
  obtain ⟨line, hline, rfl⟩ := List.mem_map.mp hl
  exact intercalate_space_trimRight (fieldsC line) (fieldsC_ne_nil line)
    (fieldsC_no_space line)

/-! ## Claim C4: which rule fires on which node -/

/-- Claim C4, counterexample.  With the default registration and
trim-trailing-spaces enabled (`Config.default`), a heading whose text is
`"a \nb"` comes out of the full engine pass unchanged: the Heading rule
(which only trims the ends of the whole text) fires first and the
Whitespace rule never runs, so the first line still ends in a space. -/
theorem whitespace_not_applied_counterexample :
    engineFormatDoc pipelineFormatters Config.default
        [Node.heading 1 "a \nb".toList atxStyle] =
      .ok [Node.heading 1 "a \nb".toList atxStyle] ∧
    Config.default.whitespace.trimTrailingSpaces = true ∧
    "a ".toList ∈ splitLinesC "a \nb".toList ∧
    ("a ".toList).getLast? = some ' ' :=
  ⟨rfl, rfl, by decide, by decide⟩

/-- Claim C4, amended.  Under the default registration (all priorities are
zero, so registration order decides) first-match-wins dispatch sends
headings to the Heading rule, paragraphs to the Paragraph rule, text nodes
to the Inline rule, lists and list items to the List rule and code blocks
to the CodeBlock rule; the Whitespace rule fires only on the document node,
where it is a no-op.  Paragraph lines nevertheless end free of trailing
spaces and tabs — the Paragraph rule's own per-line whitespace
normalization (`strings.Join(strings.Fields(line), " ")`) strips them, not
the Whitespace rule — while heading and text nodes can retain trailing
per-line spaces through the pass, as the Inline rule's substitutions leave
a text such as `"a \nb"` untouched. -/
theorem whitespace_dispatch :
    pipelineFormatters.find? (fun f => f.canFormat NodeType.heading) =
      some headingFormatter ∧
    pipelineFormatters.find? (fun f => f.canFormat NodeType.paragraph) =
      some paragraphFormatter ∧
    pipelineFormatters.find? (fun f => f.canFormat NodeType.text) =
      some inlineFormatter ∧
    pipelineFormatters.find? (fun f => f.canFormat NodeType.list) =
      some listFormatter ∧
    pipelineFormatters.find? (fun f => f.canFormat NodeType.listItem) =
      some listFormatter ∧
    pipelineFormatters.find? (fun f => f.canFormat NodeType.codeBlock) =
      some codeBlockFormatter ∧
    pipelineFormatters.find? (fun f => f.canFormat NodeType.document) =
      some whitespaceFormatter ∧
    (∀ cfg children,
      whitespaceFormatterFormat cfg (Node.document children) =
        .ok (Node.document children)) ∧
    (∀ cfg text, ∃ t1,
      paragraphFormatterFormat cfg (Node.paragraph text) = .ok (Node.paragraph t1) ∧
      ∀ l ∈ splitLinesC t1, trimRightSpaceTab l = l) ∧
    inlineFormatterFormat Config.default (Node.text "a \nb".toList) =
      .ok (Node.text "a \nb".toList) ∧
    trimRightSpaceTab "a ".toList ≠ "a ".toList := by
  refine ⟨rfl, rfl, rfl, rfl, rfl, rfl, rfl, fun _ _ => rfl, ?_, rfl, by decide⟩
  intro cfg text
  exact ⟨_, rfl, normalizeWhitespace_no_trailing _⟩

/-! ## Claim C3: link atomicity in reflow -/

/-- Claim C3, counterexample.  The claim says the reflow used by *both* the
rule engine's paragraph rule and the renderer keeps `[label](destination)`
atomic.  The paragraph rule's `wrapText` splits on whitespace only:
wrapping `"[a b](c)"` at width 3 yields two lines that cut the link
construct apart. -/
theorem paragraph_reflow_breaks_link_counterexample :
    paragraphWrapText "[a b](c)".toList 3 = "[a\nb](c)".toList ∧
    containsMarkdownLinks "[a b](c)".toList = true ∧
    splitLinesC (paragraphWrapText "[a b](c)".toList 3) =
      ["[a".toList, "b](c)".toList] := by
  refine ⟨by decide, by decide, by decide⟩

/-- Claim C3, amended.  In the *renderer's* reflow every token produced by
`tokenizeWithLinks` — in particular every link construct, which the
tokenizer keeps as one token regardless of internal spaces — appears
unsplit inside one of the produced lines, so the renderer's reflow never
inserts a line break inside a link token.  (The rule engine's paragraph
reflow splits on whitespace only and has no such guarantee.) -/
theorem renderer_reflow_links_atomic (text : Str) (width : Int)
    (hw : 0 < width) (hne : tokenizeWithLinks text ≠ []) :
    rendererWrapText text width =
      joinLinesC (wrapLoop width [] (tokenizeWithLinks text)) ∧
    ∀ t ∈ tokenizeWithLinks text,
      ∃ l ∈ wrapLoop width [] (tokenizeWithLinks text), ∃ a b, l = a ++ t ++ b := by
  constructor
  · rw [rendererWrapText, if_neg (by omega)]
    simp only [hne, if_false]
  · exact wrapLoop_token_intact width (tokenizeWithLinks text) []

/-- Claim C3, witness.  The oversized link of the spec's scenario stays in
one piece in some output line of the renderer's reflow at width 20. -/
theorem renderer_reflow_links_atomic_witness :
    (0 : Int) < 20 ∧
    ∃ l ∈ wrapLoop 20 []
        (tokenizeWithLinks "Check [the docs](http://example.com/very/long/path) now".toList),
      ∃ a b, l = a ++ "[the docs](http://example.com/very/long/path)".toList ++ b :=
  ⟨by decide,
   (renderer_reflow_links_atomic
      "Check [the docs](http://example.com/very/long/path) now".toList 20
      (by decide) (by decide)).2
     "[the docs](http://example.com/very/long/path)".toList (by decide)⟩

/-! ## Claim C5: width bound for link-free paragraphs -/

/-- The configuration of the C5 counterexample: width 5. -/
def narrowConfig : Config := { Config.default with lineWidth := 5 }

/-- Claim C5, counterexample.  A paragraph of seven spaces contains no link,
yet at width 5 its rendering contains a 7-character line, and the paragraph
has no tokens at all (so the line is not an oversized token): `wrapText`
returns whitespace-only texts unchanged because `strings.Fields` yields no
tokens. -/
theorem width_bound_counterexample :
    containsMarkdownLinks "       ".toList = false ∧
    (0 : Int) < narrowConfig.lineWidth ∧
    splitLinesC (renderParagraph narrowConfig "       ".toList) =
      ["       ".toList, [], []] ∧
    ¬(("       ".toList.length : Int) ≤ narrowConfig.lineWidth) ∧
    fieldsC "       ".toList = [] := by
  refine ⟨by decide, by decide, by decide, by decide, by decide⟩

/-- Claim C5, amended.  For a paragraph whose text contains no link construct
and contains at least one token, rendered at configured width `W > 0`,
every line of the rendered paragraph either has length at most `W` or is a
single token of the text whose own length exceeds `W` (and sits on its line
alone).  Token-free (whitespace-only) paragraphs are excluded: they pass
through `wrapText` unchanged. -/
theorem renderParagraph_width_bound (cfg : Config) (text : Str)
    (hlink : containsMarkdownLinks text = false)
    (hw : 0 < cfg.lineWidth)
    (hne : fieldsC text ≠ []) :
    ∀ l ∈ splitLinesC (renderParagraph cfg text),
      (l.length : Int) ≤ cfg.lineWidth ∨
      (l ∈ fieldsC text ∧ cfg.lineWidth < l.length) := by
  have hfix : fixBrokenLinks text = text := fixBrokenLinks_no_link text hlink
  have htok : tokenizeWithLinks text = fieldsC text :=
    tokenizeWithLinks_no_link text hlink
  have hwrap : rendererWrapText text cfg.lineWidth =
      joinLinesC (wrapLoop cfg.lineWidth [] (fieldsC text)) := by
    rw [rendererWrapText, if_neg (by omega)]
    simp only [htok, hne, if_false]
  have hrp : renderParagraph cfg text =
      joinLinesC (wrapLoop cfg.lineWidth [] (fieldsC text)) ++ '\n' :: '\n' :: [] := by
    rw [renderParagraph, hfix]
    simp only [hw, hlink, and_self, if_pos, true_and]
    rw [hwrap]
  have hnl : ∀ l ∈ wrapLoop cfg.lineWidth [] (fieldsC text), '\n' ∉ l := by
    apply wrapLoop_no_newline
    · intro t ht hmem
      have := fieldsC_no_space text t ht '\n' hmem
      simp [goIsSpace] at this
    · simp
  have hsplit : splitLinesC (renderParagraph cfg text) =
      wrapLoop cfg.lineWidth [] (fieldsC text) ++ [[], []] := by
    rw [hrp]
    exact splitLinesC_join_append_two _ (wrapLoop_ne_nil _ _ _) hnl
  intro l hl
  rw [hsplit] at hl
  rcases List.mem_append.mp hl with hl1 | hl1
  · exact wrapLoop_bound (fieldsC text) cfg.lineWidth (fieldsC text) []
      (fun t ht => ht) (Or.inl (by simp; omega)) l hl1
  · have : l = [] := by
      rcases List.mem_cons.mp hl1 with rfl | hl2
      · rfl
      · simpa using hl2
    subst this
    left
    simp
    omega

/-- Claim C5, witness.  At width 5 the paragraph `"aaa bbbbbbbb cc"` renders
with the oversized token `"bbbbbbbb"` on a line of its own, every other
line within the width. -/
theorem renderParagraph_width_bound_witness :
    containsMarkdownLinks "aaa bbbbbbbb cc".toList = false ∧
    "bbbbbbbb".toList ∈ splitLinesC (renderParagraph narrowConfig "aaa bbbbbbbb cc".toList) ∧
    (("bbbbbbbb".toList.length : Int) ≤ narrowConfig.lineWidth ∨
      ("bbbbbbbb".toList ∈ fieldsC "aaa bbbbbbbb cc".toList ∧
        narrowConfig.lineWidth < "bbbbbbbb".toList.length)) :=
  ⟨by decide, by decide,
   renderParagraph_width_bound narrowConfig "aaa bbbbbbbb cc".toList
     (by decide) (by decide) (by decide) "bbbbbbbb".toList (by decide)⟩
